import Mathlib

/-!
Shallow embedding of `src/data_pipeline.py` (creditscope monitoring pipeline).

Modelling conventions:
* numpy/pandas float columns are `List (Option ℚ)`, `none` standing for NaN;
  exact rational arithmetic stands in for IEEE floats.
* pandas timestamps are `Date` records (year, month, day); `to_period(..).to_timestamp()`
  truncates to the first day of the month / quarter.
* `groupby` iterates the distinct keys in sorted order, each group being the
  sublist of rows with that key (pandas `sort=True` default).
* Python `round(x, nd)` / numpy rounding is round-half-to-even, `roundTo`.
* `np.log` is `Real.log`, so the PSI value lives in `ℝ`.
-/

namespace CreditScope

/-- Round to the nearest integer with ties to even (Python / numpy rounding). -/
def rne {α : Type} [LinearOrderedField α] [FloorRing α] (x : α) : ℤ :=
  if Int.fract x = 1 / 2 then (if Even ⌊x⌋ then ⌊x⌋ else ⌊x⌋ + 1) else round x

/-- Python `round(x, nd)`. -/
def roundTo {α : Type} [LinearOrderedField α] [FloorRing α] (nd : ℕ) (x : α) : α :=
  (rne (x * 10 ^ nd) : α) / 10 ^ nd

/-- A calendar timestamp: year, month (1-12), day (1-31). -/
structure Date where
  y : ℤ
  m : ℕ
  d : ℕ
deriving DecidableEq

/-- pandas `.dt.to_period("M").dt.to_timestamp()`: first day of the month. -/
def monthStart (t : Date) : Date := ⟨t.y, t.m, 1⟩

/-- pandas `.dt.to_period("Q").dt.to_timestamp()`: first day of the quarter. -/
def quarterStart (t : Date) : Date := ⟨t.y, 3 * ((t.m - 1) / 3) + 1, 1⟩

/-- Chronological sort key (injective on valid dates). -/
def dateIdx (t : Date) : ℤ := 372 * t.y + 31 * (t.m : ℤ) + (t.d : ℤ)

def dateLe (a b : Date) : Prop := dateIdx a ≤ dateIdx b

instance : DecidableRel dateLe := fun a b => by unfold dateLe; infer_instance

inductive Gran
  | month
  | quarter
deriving DecidableEq

/-- The four drift-tracked features (`DRIFT_FEATURES` in the source). -/
inductive Feat
  | dti
  | int_rate
  | annual_inc
  | loan_amnt
deriving DecidableEq

/-- One cleaned, scored loan record (the columns of `df_scored` that the
monitored metrics read). -/
structure Record where
  issue_d : Date
  year : ℤ
  grade : ℕ
  default_flag : Bool
  pred_default_prob : ℚ
  dti : Option ℚ
  int_rate : Option ℚ
  annual_inc : Option ℚ
  loan_amnt : Option ℚ
deriving DecidableEq

def TRAIN_YEARS : List ℤ := [2012, 2013, 2014]

def DRIFT_FEATURES : List Feat := [.dti, .int_rate, .annual_inc, .loan_amnt]

def PSI_N_BINS : ℕ := 10

def featVal : Feat → Record → Option ℚ
  | .dti, r => r.dti
  | .int_rate, r => r.int_rate
  | .annual_inc, r => r.annual_inc
  | .loan_amnt, r => r.loan_amnt

/-- Column `df["cohort"]`: monthly cohort of a record. -/
def cohortM (r : Record) : Date := monthStart r.issue_d

/-- Column `df["cohort_q"]`: quarterly cohort of a record. -/
def cohortQ (r : Record) : Date := quarterStart r.issue_d

/-- The distinct keys of a `groupby`, in sorted order. -/
def groupKeys {α κ : Type} [DecidableEq κ] (le : κ → κ → Prop) [DecidableRel le]
    (key : α → κ) (df : List α) : List κ :=
  List.insertionSort le (df.map key).dedup

/-- Extended rationals: numpy floats together with `-inf` (`⊥`) and `+inf` (`⊤`). -/
abbrev ERat := WithBot (WithTop ℚ)

def toERat (q : ℚ) : ERat := ((q : WithTop ℚ) : WithBot (WithTop ℚ))

/-- Model of `np.quantile` with the default linear interpolation (values sorted first). -/
def quantile (xs : List ℚ) (q : ℚ) : ℚ :=
  let s := List.insertionSort (· ≤ ·) xs
  let h : ℚ := q * ((s.length : ℚ) - 1)
  let lo := ⌊h⌋.toNat
  let hi := ⌈h⌉.toNat
  s.getD lo 0 + (h - (⌊h⌋ : ℚ)) * (s.getD hi 0 - s.getD lo 0)

/-- Model of `np.quantile(vals, np.linspace(0, 1, n_bins + 1))`. -/
def rawEdges (vals : List ℚ) (nBins : ℕ) : List ℚ :=
  (List.range (nBins + 1)).map (fun (i : ℕ) => quantile vals ((i : ℚ) / (nBins : ℚ)))

/-- Replace the last entry by `+inf` (`edges[-1] = np.inf`). -/
def setLast : List ℚ → List ERat
  | [] => []
  | [_] => [⊤]
  | x :: y :: t => toERat x :: setLast (y :: t)

/-- Replace the first entry by `-inf` and the last by `+inf`
(`edges[0] = -np.inf; edges[-1] = np.inf`; on a single slot the second
assignment overwrites the first). -/
def setEnds : List ℚ → List ERat
  | [] => []
  | [_] => [⊤]
  | _ :: y :: t => ⊥ :: setLast (y :: t)

/-- Model of `np.unique`: sorted distinct values. -/
def npUnique (l : List ERat) : List ERat := List.insertionSort (· ≤ ·) l.dedup

/-- The bin edges computed inside `compute_psi`: Baseline quantiles with the
outer edges replaced by `-inf`/`+inf` and duplicates collapsed. -/
def psiEdges (expected : List (Option ℚ)) (nBins : ℕ) : List ERat :=
  npUnique (setEnds (rawEdges expected.reduceOption nBins))

/-- Bin membership test of `np.histogram`: half-open bins, last bin closed. -/
def binMem (edges : List ERat) (i : ℕ) (v : ℚ) : Bool :=
  decide (edges.getD i ⊤ ≤ toERat v) &&
    (if i + 2 = edges.length then decide (toERat v ≤ edges.getD (i + 1) ⊥)
     else decide (toERat v < edges.getD (i + 1) ⊥))

/-- Model of `np.histogram(vals, bins=edges)[0]`. -/
def histogram (vals : List ℚ) (edges : List ERat) : List ℕ :=
  (List.range (edges.length - 1)).map (fun i => vals.countP (binMem edges i))

/-- Array `e_counts` of `compute_psi`. -/
def eCounts (expected : List (Option ℚ)) (nBins : ℕ) : List ℕ :=
  histogram expected.reduceOption (psiEdges expected nBins)

/-- Array `a_counts` of `compute_psi`: the cohort binned with the Baseline's edges. -/
def aCounts (expected actual : List (Option ℚ)) (nBins : ℕ) : List ℕ :=
  histogram actual.reduceOption (psiEdges expected nBins)

/-- The additive smoothing constant `eps = 1e-4`. -/
def eps : ℚ := 1 / 10000

/-- Array `e_pct = e_counts / e_counts.sum() + eps`. -/
def ePcts (expected : List (Option ℚ)) (nBins : ℕ) : List ℚ :=
  (eCounts expected nBins).map
    (fun (c : ℕ) => (c : ℚ) / ((eCounts expected nBins).sum : ℚ) + eps)

/-- Array `a_pct = a_counts / a_counts.sum() + eps`. -/
def aPcts (expected actual : List (Option ℚ)) (nBins : ℕ) : List ℚ :=
  (aCounts expected actual nBins).map
    (fun (c : ℕ) => (c : ℚ) / ((aCounts expected actual nBins).sum : ℚ) + eps)

/-- The per-bin PSI contributions `(a_pct - e_pct) * np.log(a_pct / e_pct)`. -/
noncomputable def psiTerms (expected actual : List (Option ℚ)) (nBins : ℕ) : List ℝ :=
  ((aPcts expected actual nBins).zip (ePcts expected nBins)).map
    (fun (p : ℚ × ℚ) => ((p.1 : ℝ) - (p.2 : ℝ)) * Real.log ((p.1 : ℝ) / (p.2 : ℝ)))

/-- Function `compute_psi(expected, actual, n_bins)`: the summed divergence, rounded to
6 decimal digits. -/
noncomputable def compute_psi (expected actual : List (Option ℚ))
    (nBins : ℕ := PSI_N_BINS) : ℝ :=
  roundTo 6 (psiTerms expected actual nBins).sum

/-- Contribution of one (positive, negative) pair in the rank-based AUC:
ties in predicted probability count one half. -/
def pairScore (p n : ℚ) : ℚ := if n < p then 1 else if p = n then 1 / 2 else 0

/-- Predicted probabilities of the positive (defaulted) records of a group. -/
def posProbs (g : List Record) : List ℚ :=
  (g.filter (fun r => r.default_flag)).map (·.pred_default_prob)

/-- Predicted probabilities of the negative (non-defaulted) records of a group. -/
def negProbs (g : List Record) : List ℚ :=
  (g.filter (fun r => !r.default_flag)).map (·.pred_default_prob)

/-- Model of `sklearn.metrics.roc_auc_score` on one group, as the rank-based
(Mann-Whitney) pair statistic. -/
def rocAucScore (g : List Record) : ℚ :=
  ((posProbs g).map (fun p => ((negProbs g).map (fun n => pairScore p n)).sum)).sum /
    (((posProbs g).length : ℚ) * ((negProbs g).length : ℚ))

/-- Count `group["default_flag"].nunique()`. -/
def nuniqueFlags (g : List Record) : ℕ := ((g.map (·.default_flag)).dedup).length

/-- Mean `group["default_flag"].mean()`. -/
def defaultRate (g : List Record) : ℚ := (g.countP (·.default_flag) : ℚ) / (g.length : ℚ)

structure AucRow where
  period : Date
  granularity : Gran
  auc : ℚ
  n_loans : ℕ
  default_rate : ℚ
deriving DecidableEq

structure AucRowR extends AucRow where
  auc_rolling3 : ℚ
deriving DecidableEq

/-- The loop body of `compute_auc_by_cohort`: the guarded AUC row of one
group. -/
def aucRowOf (gran : Gran) (key : Record → Date) (df : List Record) (k : Date) :
    Option AucRow :=
  let g := df.filter (fun r => key r = k)
  if nuniqueFlags g < 2 ∨ g.length < 30 then none
  else some ⟨k, gran, roundTo 4 (rocAucScore g), g.length, roundTo 4 (defaultRate g)⟩

/-- The guarded per-group AUC rows of `compute_auc_by_cohort`, for one
granularity. -/
def aucRowsFor (gran : Gran) (key : Record → Date) (df : List Record) : List AucRow :=
  (groupKeys dateLe key df).filterMap (aucRowOf gran key df)

/-- Table `auc_df` before the rolling merge: monthly rows then quarterly rows. -/
def auc_df0 (df : List Record) : List AucRow :=
  aucRowsFor Gran.month cohortM df ++ aucRowsFor Gran.quarter cohortQ df

/-- Table `auc_df[auc_df["granularity"] == "month"].sort_values("period")`. -/
def monthlyTable (df : List Record) : List AucRow :=
  List.insertionSort (fun a b => dateLe a.period b.period)
    ((auc_df0 df).filter (fun r => r.granularity = Gran.month))

/-- pandas `Series.rolling(3, min_periods=1).mean().round(4)`. -/
def rolling3 (xs : List ℚ) : List ℚ :=
  (List.range xs.length).map (fun i =>
    let w := (xs.take (i + 1)).drop (i + 1 - 3)
    roundTo 4 (w.sum / (w.length : ℚ)))

/-- Table `monthly[["period", "auc_rolling3"]]`: the merge table of the rolling join. -/
def monthlyRolling (df : List Record) : List (Date × ℚ) :=
  ((monthlyTable df).map (·.period)).zip (rolling3 ((monthlyTable df).map (·.auc)))

/-- The left merge on `period` with the monthly rolling table, with missing
rolling values filled with the row's raw `auc` (`merge(..., how="left")`
followed by `fillna`). -/
def withRolling (df : List Record) (r : AucRow) : AucRowR :=
  match (monthlyRolling df).find? (fun pr => decide (pr.1 = r.period)) with
  | some pr => ⟨r, pr.2⟩
  | none => ⟨r, r.auc⟩

/-- Function `compute_auc_by_cohort`: the guarded AUC rows with the monthly rolling-3
series left-merged back on `period` and missing values filled with raw `auc`. -/
def compute_auc_by_cohort (df : List Record) : List AucRowR :=
  (auc_df0 df).map (withRolling df)

structure AucGradeRow where
  period : Date
  grade : ℕ
  auc : ℚ
  n_loans : ℕ
  default_rate : ℚ
deriving DecidableEq

/-- Sorted order of the pair keys of `df.groupby(["cohort", "grade"])`. -/
def gradeKeyLe (a b : Date × ℕ) : Prop :=
  dateIdx a.1 < dateIdx b.1 ∨ (dateIdx a.1 = dateIdx b.1 ∧ a.2 ≤ b.2)

instance : DecidableRel gradeKeyLe := fun a b => by unfold gradeKeyLe; infer_instance

/-- The loop body of `compute_auc_by_cohort_grade`: the guarded AUC row of
one (cohort, grade) group, with the 20-record floor. -/
def gradeRowOf (df : List Record) (k : Date × ℕ) : Option AucGradeRow :=
  let g := df.filter (fun r => (cohortM r, r.grade) = k)
  if nuniqueFlags g < 2 ∨ g.length < 20 then none
  else some ⟨k.1, k.2, roundTo 4 (rocAucScore g), g.length, roundTo 4 (defaultRate g)⟩

/-- Function `compute_auc_by_cohort_grade`: AUC per (cohort, grade) with the 20-record
floor. -/
def compute_auc_by_cohort_grade (df : List Record) : List AucGradeRow :=
  (groupKeys gradeKeyLe (fun r => (cohortM r, r.grade)) df).filterMap (gradeRowOf df)

structure PsiRow where
  period : Date
  feature : Feat
  psi : ℝ
  n_obs : ℕ

/-- One feature's column over a record list. -/
def featCol (f : Feat) (df : List Record) : List (Option ℚ) := df.map (featVal f)

/-- pandas `Series.dropna()`. -/
def dropna (l : List (Option ℚ)) : List (Option ℚ) := l.filter (·.isSome)

/-- The training-period baseline column of one feature
(`train[feature].dropna()`). -/
def baselineCol (f : Feat) (df : List Record) : List (Option ℚ) :=
  dropna (featCol f (df.filter (fun r => r.year ∈ TRAIN_YEARS)))

/-- One cohort's non-null column of one feature
(`group[feature].dropna()`). -/
def actualCol (f : Feat) (df : List Record) (c : Date) : List (Option ℚ) :=
  dropna (featCol f (df.filter (fun r => cohortM r = c)))

/-- The loop body of `compute_psi_by_cohort`: the guarded PSI row of one
(feature, cohort) pair. -/
noncomputable def psiRowOf (f : Feat) (df : List Record) (c : Date) : Option PsiRow :=
  if (actualCol f df c).length < 10 then none
  else some ⟨c, f, compute_psi (baselineCol f df) (actualCol f df c),
    (actualCol f df c).length⟩

/-- Function `compute_psi_by_cohort`: PSI per drift feature per monthly cohort against
the training-years baseline, guarded by 10 non-null observations. -/
noncomputable def compute_psi_by_cohort (df : List Record) : List PsiRow :=
  DRIFT_FEATURES.flatMap (fun f =>
    (groupKeys dateLe cohortM df).filterMap (psiRowOf f df))

structure DistRow where
  dti : Option ℚ
  int_rate : Option ℚ
  annual_inc : Option ℚ
  loan_amnt : Option ℚ
  year : ℤ
  period_label : String
deriving DecidableEq

/-- One row of `df_out` in `compute_feature_distributions`, with the
`np.where` stratum label. -/
def toDistRow (r : Record) : DistRow :=
  ⟨r.dti, r.int_rate, r.annual_inc, r.loan_amnt, r.year,
    if r.year ∈ TRAIN_YEARS then "training (2012-14)" else "monitoring (2015-18)"⟩

/-- Linear congruential step: deterministic stand-in for the numpy generator
seeded by `random_state=42`. -/
def lcgNext (s : ℕ) : ℕ := (1664525 * s + 1013904223) % 4294967296

/-- Model of `DataFrame.sample(n, random_state=seed)`: a seeded selection of
`n` distinct positions without replacement. -/
def sampleWR {α : Type} (seed : ℕ) : ℕ → List α → List α
  | 0, _ => []
  | _ + 1, [] => []
  | n + 1, x :: xs =>
    (x :: xs).getD (seed % (x :: xs).length) x ::
      sampleWR (lcgNext seed) n ((x :: xs).eraseIdx (seed % (x :: xs).length))

/-- Model of `group.sample(n=n, random_state=42)`. -/
def dfSample {α : Type} (l : List α) (n : ℕ) : List α := sampleWR 42 n l

def strLe (a b : String) : Prop := a ≤ b

instance : DecidableRel strLe := fun a b => by unfold strLe; infer_instance

/-- Function `compute_feature_distributions`: per stratum label, a without-replacement
sample of at most 5000 rows, concatenated. -/
def compute_feature_distributions (df : List Record) : List DistRow :=
  let dfOut := df.map toDistRow
  (groupKeys strLe (fun r => r.period_label) dfOut).flatMap (fun lab =>
    let g := dfOut.filter (fun r => r.period_label = lab)
    dfSample g (min g.length 5000))

/-! ## Auxiliary definitions for the verification -/

/-- Membership of value `v` in bin `i`, in clean order form (equivalent to
`binMem` on in-range bins once the last edge is `+inf`). -/
def binPred (edges : List ERat) (i : ℕ) (v : ℚ) : Prop :=
  edges.getD i ⊤ ≤ toERat v ∧ toERat v < edges.getD (i + 1) ⊥

/-- A concrete record for the concrete-instance theorems. -/
def mkRec (dt : Date) (yr : ℤ) (fl : Bool) (p : ℚ) : Record :=
  ⟨dt, yr, 1, fl, p, some 1, some 1, some 1, some 1⟩

/-- Concrete dataset: January 2015 has 30 records (15 defaulted scored 0.9,
15 non-defaulted scored 0.1), February 2015 one defaulted record scored 0.
The January monthly cohort and the 2015Q1 quarterly cohort survive the AUC
guard; the February monthly cohort does not. -/
def c1df : List Record :=
  List.replicate 15 (mkRec ⟨2015, 1, 5⟩ 2015 true (9 / 10)) ++
    List.replicate 15 (mkRec ⟨2015, 1, 5⟩ 2015 false (1 / 10)) ++
      [mkRec ⟨2015, 2, 5⟩ 2015 true 0]

/-- The 2015Q1 quarterly row that `compute_auc_by_cohort` produces on
`c1df`. -/
def c1row : AucRowR :=
  ⟨⟨⟨2015, 1, 1⟩, Gran.quarter, 15 / 16, 31, 5161 / 10000⟩, 1⟩

/-- Concrete dataset: 25 records in March 2015, grade 1, both outcome
classes present. -/
def c5df : List Record :=
  List.replicate 5 (mkRec ⟨2015, 3, 7⟩ 2015 true (8 / 10)) ++
    List.replicate 20 (mkRec ⟨2015, 3, 7⟩ 2015 false (2 / 10))

/-- Concrete group: two defaulted records scored 0.9 and two non-defaulted
scored 0.1 (perfectly separable). -/
def c6g : List Record :=
  [mkRec ⟨2015, 4, 2⟩ 2015 true (9 / 10), mkRec ⟨2015, 4, 3⟩ 2015 true (9 / 10),
   mkRec ⟨2015, 4, 4⟩ 2015 false (1 / 10), mkRec ⟨2015, 4, 5⟩ 2015 false (1 / 10)]

/-- Concrete dataset: ten training-year records in one monthly cohort with
all drift features present. -/
def c10df : List Record :=
  (List.range 10).map (fun (i : ℕ) => mkRec ⟨2013, 5, i + 1⟩ 2013 (i % 2 == 0) ((i : ℚ) / 10))

/-- Concrete baseline column: the values 0, 1, ..., 19. -/
def c8e : List (Option ℚ) := (List.range 20).map (fun (i : ℕ) => some (i : ℚ))

/-- Concrete cohort column. -/
def c8a : List (Option ℚ) := [some 100, none, some (-3), some 7]

/-- Concrete dataset for the sampler: two training-year records and one
monitoring-year record. -/
def c9df : List Record :=
  [mkRec ⟨2013, 1, 2⟩ 2013 true (1 / 2), mkRec ⟨2014, 1, 2⟩ 2014 false (1 / 2),
   mkRec ⟨2016, 1, 2⟩ 2016 true (1 / 2)]

/-! ## Lemmas about the rounding primitive -/

theorem rne_nonneg {α : Type} [LinearOrderedField α] [FloorRing α] {x : α}
    (hx : 0 ≤ x) : 0 ≤ rne x := by
  unfold rne
  split
  · have hfl : (0 : ℤ) ≤ ⌊x⌋ := by
      by_contra hneg
      push_neg at hneg
      have h1 : ⌊x⌋ ≤ -1 := by omega
      have h2 : (⌊x⌋ : α) ≤ -1 := by exact_mod_cast h1
      have h3 : (⌊x⌋ : α) + Int.fract x = x := Int.floor_add_fract x
      rename_i hfr
      rw [hfr] at h3
      nlinarith
    split <;> omega
  · rw [round_eq]
    rw [Int.le_floor]
    push_cast
    linarith

theorem roundTo_nonneg {α : Type} [LinearOrderedField α] [FloorRing α] {nd : ℕ} {x : α}
    (hx : 0 ≤ x) : 0 ≤ roundTo nd x := by
  unfold roundTo
  have h10 : (0 : α) < 10 ^ nd := by positivity
  have h1 : (0 : ℤ) ≤ rne (x * 10 ^ nd) := rne_nonneg (by positivity)
  have h2 : (0 : α) ≤ (rne (x * 10 ^ nd) : α) := by exact_mod_cast h1
  positivity

theorem roundTo_zero {α : Type} [LinearOrderedField α] [FloorRing α] (nd : ℕ) :
    roundTo nd (0 : α) = 0 := by
  unfold roundTo rne
  norm_num

/-! ## Lemmas about extended rationals -/

theorem toERat_le_iff {a b : ℚ} : toERat a ≤ toERat b ↔ a ≤ b := by
  unfold toERat
  rw [WithBot.coe_le_coe, WithTop.coe_le_coe]

theorem toERat_lt_iff {a b : ℚ} : toERat a < toERat b ↔ a < b := by
  unfold toERat
  rw [WithBot.coe_lt_coe, WithTop.coe_lt_coe]

theorem toERat_ne_top (a : ℚ) : toERat a ≠ (⊤ : ERat) := by
  unfold toERat
  intro h
  exact WithTop.coe_ne_top (WithBot.coe_inj.mp h)

theorem toERat_lt_top (a : ℚ) : toERat a < (⊤ : ERat) :=
  lt_of_le_of_ne le_top (toERat_ne_top a)

theorem bot_le_toERat (a : ℚ) : (⊥ : ERat) ≤ toERat a := bot_le

/-! ## Lemmas about sorted lists of edges -/

theorem sorted_head_bot {l : List ERat} (hs : l.Sorted (· ≤ ·)) (hb : (⊥ : ERat) ∈ l) :
    l.getD 0 ⊤ = ⊥ := by
  cases l with
  | nil => cases hb
  | cons x t =>
    rcases List.mem_cons.mp hb with h | h
    · simpa using h.symm
    · have hx : x ≤ ⊥ := List.rel_of_sorted_cons hs ⊥ h
      simpa using le_bot_iff.mp hx

theorem sorted_getLast_top {l : List ERat} (hs : l.Sorted (· ≤ ·)) (ht : (⊤ : ERat) ∈ l) :
    l.getD (l.length - 1) ⊥ = ⊤ := by
  induction l with
  | nil => cases ht
  | cons x t ih =>
    cases t with
    | nil => simpa using (List.mem_singleton.mp ht).symm
    | cons y s =>
      have hst : (y :: s).Sorted (· ≤ ·) := hs.of_cons
      have htt : (⊤ : ERat) ∈ y :: s := by
        rcases List.mem_cons.mp ht with h | h
        · have hxy : x ≤ y := List.rel_of_sorted_cons hs y (List.mem_cons_self y s)
          rw [← h] at hxy
          have : y = ⊤ := top_le_iff.mp hxy
          rw [this]; exact List.mem_cons_self _ _
        · exact h
      have := ih hst htt
      simpa using this

/-! ## Lemmas about np.unique and the PSI edges -/

theorem npUnique_sorted_le (l : List ERat) : (npUnique l).Sorted (· ≤ ·) :=
  List.sorted_insertionSort _ _

theorem npUnique_nodup (l : List ERat) : (npUnique l).Nodup :=
  ((List.perm_insertionSort _ _).nodup_iff).mpr (List.nodup_dedup l)

theorem npUnique_sorted (l : List ERat) : (npUnique l).Sorted (· < ·) :=
  (npUnique_sorted_le l).lt_of_le (npUnique_nodup l)

theorem mem_npUnique {a : ERat} {l : List ERat} : a ∈ npUnique l ↔ a ∈ l := by
  unfold npUnique
  rw [(List.perm_insertionSort _ _).mem_iff, List.mem_dedup]

theorem top_mem_setLast : ∀ {l : List ℚ}, l ≠ [] → (⊤ : ERat) ∈ setLast l
  | [], h => absurd rfl h
  | [_], _ => by simp [setLast]
  | _ :: _ :: _, _ => by
    rw [setLast]
    exact List.mem_cons_of_mem _ (top_mem_setLast (List.cons_ne_nil _ _))

theorem top_mem_setEnds {l : List ℚ} (h : l ≠ []) : (⊤ : ERat) ∈ setEnds l := by
  match l with
  | [] => exact absurd rfl h
  | [_] => simp [setEnds]
  | _ :: _ :: _ =>
    rw [setEnds]
    exact List.mem_cons_of_mem _ (top_mem_setLast (List.cons_ne_nil _ _))

theorem bot_mem_setEnds {l : List ℚ} (h : 2 ≤ l.length) : (⊥ : ERat) ∈ setEnds l := by
  match l with
  | [] => simp at h
  | [_] => simp at h
  | _ :: _ :: _ => rw [setEnds]; exact List.mem_cons_self _ _

theorem bot_lt_toERat (a : ℚ) : (⊥ : ERat) < toERat a := WithBot.bot_lt_coe _

theorem bot_ne_top_erat : (⊥ : ERat) ≠ (⊤ : ERat) :=
  ((bot_lt_toERat 0).trans (toERat_lt_top 0)).ne

theorem two_le_length_of_mem_ne {α : Type} {a b : α} {l : List α}
    (ha : a ∈ l) (hb : b ∈ l) (hab : a ≠ b) : 2 ≤ l.length := by
  match l with
  | [] => cases ha
  | [x] =>
    rw [List.mem_singleton] at ha hb
    exact absurd (ha.trans hb.symm) hab
  | _ :: _ :: _ => rw [List.length_cons, List.length_cons]; omega

theorem rawEdges_length (vals : List ℚ) (nBins : ℕ) :
    (rawEdges vals nBins).length = nBins + 1 := by
  unfold rawEdges
  rw [List.length_map, List.length_range]

theorem bot_mem_psiEdges {expected : List (Option ℚ)} {nBins : ℕ} (h : 1 ≤ nBins) :
    (⊥ : ERat) ∈ psiEdges expected nBins := by
  unfold psiEdges
  rw [mem_npUnique]
  exact bot_mem_setEnds (by rw [rawEdges_length]; omega)

theorem top_mem_psiEdges (expected : List (Option ℚ)) (nBins : ℕ) :
    (⊤ : ERat) ∈ psiEdges expected nBins := by
  unfold psiEdges
  rw [mem_npUnique]
  exact top_mem_setEnds (by
    intro hnil
    have := rawEdges_length expected.reduceOption nBins
    rw [hnil] at this
    simp at this)

theorem psiEdges_sorted (expected : List (Option ℚ)) (nBins : ℕ) :
    (psiEdges expected nBins).Sorted (· < ·) := npUnique_sorted _

theorem psiEdges_length {expected : List (Option ℚ)} {nBins : ℕ} (h : 1 ≤ nBins) :
    2 ≤ (psiEdges expected nBins).length :=
  two_le_length_of_mem_ne (bot_mem_psiEdges h) (top_mem_psiEdges expected nBins)
    bot_ne_top_erat

theorem psiEdges_head {expected : List (Option ℚ)} {nBins : ℕ} (h : 1 ≤ nBins) :
    (psiEdges expected nBins).getD 0 ⊤ = ⊥ :=
  sorted_head_bot ((psiEdges_sorted expected nBins).le_of_lt) (bot_mem_psiEdges h)

theorem psiEdges_last (expected : List (Option ℚ)) (nBins : ℕ) :
    (psiEdges expected nBins).getD ((psiEdges expected nBins).length - 1) ⊥ = ⊤ :=
  sorted_getLast_top ((psiEdges_sorted expected nBins).le_of_lt)
    (top_mem_psiEdges expected nBins)

/-! ## Bin partition lemmas -/

theorem sorted_getD_lt {E : List ERat} (hs : E.Sorted (· < ·)) {i j : ℕ}
    (hij : i < j) (hj : j < E.length) (d₁ d₂ : ERat) :
    E.getD i d₁ < E.getD j d₂ := by
  have hi : i < E.length := lt_trans hij hj
  rw [List.getD_eq_getElem E d₁ hi, List.getD_eq_getElem E d₂ hj]
  have := hs.rel_get_of_lt (a := ⟨i, hi⟩) (b := ⟨j, hj⟩) hij
  simpa using this

theorem sorted_getD_le {E : List ERat} (hs : E.Sorted (· < ·)) {i j : ℕ}
    (hij : i ≤ j) (hj : j < E.length) (d₁ d₂ : ERat) :
    E.getD i d₁ ≤ E.getD j d₂ := by
  rcases eq_or_lt_of_le hij with h | h
  · subst h
    rw [List.getD_eq_getElem E d₁ hj, List.getD_eq_getElem E d₂ hj]
  · exact (sorted_getD_lt hs h hj d₁ d₂).le

theorem existsUnique_bin {E : List ERat} (hs : E.Sorted (· < ·))
    (h0 : E.getD 0 ⊤ = ⊥) (hl : E.getD (E.length - 1) ⊥ = ⊤) (hlen : 2 ≤ E.length)
    (v : ℚ) : ∃! i, i < E.length - 1 ∧ binPred E i v := by
  classical
  have h0mem : 0 ∈ (Finset.range E.length).filter (fun i => E.getD i ⊤ ≤ toERat v) := by
    rw [Finset.mem_filter, Finset.mem_range]
    exact ⟨by omega, by rw [h0]; exact bot_le⟩
  have hne : ((Finset.range E.length).filter
      (fun i => E.getD i ⊤ ≤ toERat v)).Nonempty := ⟨0, h0mem⟩
  obtain ⟨hkrange, hkle⟩ := Finset.mem_filter.mp (Finset.max'_mem _ hne)
  rw [Finset.mem_range] at hkrange
  have hknl : ((Finset.range E.length).filter
      (fun i => E.getD i ⊤ ≤ toERat v)).max' hne ≠ E.length - 1 := by
    intro h
    have htop : E.getD (E.length - 1) ⊤ = ⊤ := by
      rw [List.getD_eq_getElem E ⊤ (by omega), ← List.getD_eq_getElem E ⊥ (by omega), hl]
    rw [h, htop] at hkle
    exact (toERat_lt_top v).not_le hkle
  have hklt : ((Finset.range E.length).filter
      (fun i => E.getD i ⊤ ≤ toERat v)).max' hne < E.length - 1 := by omega
  have hnext : toERat v < E.getD (((Finset.range E.length).filter
      (fun i => E.getD i ⊤ ≤ toERat v)).max' hne + 1) ⊥ := by
    by_contra hcon
    push_neg at hcon
    have hmem : (((Finset.range E.length).filter
        (fun i => E.getD i ⊤ ≤ toERat v)).max' hne + 1) ∈
        (Finset.range E.length).filter (fun i => E.getD i ⊤ ≤ toERat v) := by
      rw [Finset.mem_filter, Finset.mem_range]
      refine ⟨by omega, ?_⟩
      calc E.getD _ ⊤ = E.getD _ ⊥ := by
            rw [List.getD_eq_getElem E ⊤ (by omega), List.getD_eq_getElem E ⊥ (by omega)]
        _ ≤ toERat v := hcon
    have := Finset.le_max' _ _ hmem
    omega
  refine ⟨((Finset.range E.length).filter (fun i => E.getD i ⊤ ≤ toERat v)).max' hne,
    ⟨hklt, hkle, hnext⟩, ?_⟩
  intro j hj
  obtain ⟨hjlt, hjle, hjnext⟩ := hj
  have hjmem : j ∈ (Finset.range E.length).filter (fun i => E.getD i ⊤ ≤ toERat v) := by
    rw [Finset.mem_filter, Finset.mem_range]
    exact ⟨by omega, hjle⟩
  have hjk : j ≤ ((Finset.range E.length).filter
      (fun i => E.getD i ⊤ ≤ toERat v)).max' hne := Finset.le_max' _ _ hjmem
  rcases eq_or_lt_of_le hjk with h | h
  · exact h
  · exfalso
    have h1 : E.getD (j + 1) ⊥ ≤ E.getD (((Finset.range E.length).filter
        (fun i => E.getD i ⊤ ≤ toERat v)).max' hne) ⊤ :=
      sorted_getD_le hs (by omega) (by omega) ⊥ ⊤
    exact absurd (lt_of_lt_of_le hjnext (le_trans h1 hkle)) (lt_irrefl _)

theorem binMem_eq_binPred {E : List ERat} (hl : E.getD (E.length - 1) ⊥ = ⊤)
    {i : ℕ} (hi : i < E.length - 1) (v : ℚ) :
    (binMem E i v = true) ↔ binPred E i v := by
  unfold binMem binPred
  rcases eq_or_ne (i + 2) E.length with h | h
  · have h1 : i + 1 = E.length - 1 := by omega
    rw [if_pos h, h1, hl]
    simp only [Bool.and_eq_true, decide_eq_true_eq]
    constructor
    · rintro ⟨ha, _⟩
      exact ⟨ha, toERat_lt_top v⟩
    · rintro ⟨ha, _⟩
      exact ⟨ha, le_top⟩
  · rw [if_neg h]
    simp only [Bool.and_eq_true, decide_eq_true_eq]

theorem list_range_map_sum (f : ℕ → ℕ) (m : ℕ) :
    ((List.range m).map f).sum = ∑ i in Finset.range m, f i := by
  induction m with
  | zero => simp
  | succ n ih =>
    rw [List.range_succ, List.map_append, List.sum_append, Finset.sum_range_succ, ih]
    simp

theorem sum_countP_of_partition {α : Type} {p : ℕ → α → Bool} {m : ℕ} {vals : List α}
    (hU : ∀ v ∈ vals, ∃! i, i < m ∧ p i v = true) :
    ((List.range m).map (fun i => vals.countP (p i))).sum = vals.length := by
  classical
  induction vals with
  | nil => simp
  | cons x xs ih =>
    have ih' := ih (fun v hv => hU v (List.mem_cons_of_mem x hv))
    rw [list_range_map_sum] at ih' ⊢
    have hc : ∀ i ∈ Finset.range m,
        (x :: xs).countP (p i) = xs.countP (p i) + (if p i x = true then 1 else 0) :=
      fun i _ => by rw [List.countP_cons]
    rw [Finset.sum_congr rfl hc, Finset.sum_add_distrib, ih']
    obtain ⟨i₀, ⟨hi₀m, hi₀p⟩, huniq⟩ := hU x (List.mem_cons_self x xs)
    have hfilter : (Finset.range m).filter (fun i => p i x = true) = {i₀} := by
      apply Finset.eq_singleton_iff_unique_mem.mpr
      refine ⟨?_, ?_⟩
      · rw [Finset.mem_filter, Finset.mem_range]
        exact ⟨hi₀m, hi₀p⟩
      · intro j hj
        rw [Finset.mem_filter, Finset.mem_range] at hj
        exact huniq j hj
    have hcard := Finset.card_filter (fun i => p i x = true) (Finset.range m)
    rw [hfilter, Finset.card_singleton] at hcard
    rw [← hcard, List.length_cons]

theorem histogram_sum {vals : List ℚ} {E : List ERat} (hs : E.Sorted (· < ·))
    (h0 : E.getD 0 ⊤ = ⊥) (hl : E.getD (E.length - 1) ⊥ = ⊤) (hlen : 2 ≤ E.length) :
    (histogram vals E).sum = vals.length := by
  unfold histogram
  apply sum_countP_of_partition
  intro v _
  obtain ⟨i, ⟨him, hip⟩, huniq⟩ := existsUnique_bin hs h0 hl hlen v
  exact ⟨i, ⟨him, (binMem_eq_binPred hl him v).mpr hip⟩,
    fun j hj => huniq j ⟨hj.1, (binMem_eq_binPred hl hj.1 v).mp hj.2⟩⟩

/-! ## PSI positivity lemmas -/

theorem pcts_pos (counts : List ℕ) (S : ℕ) :
    ∀ q ∈ counts.map (fun (c : ℕ) => (c : ℚ) / (S : ℚ) + eps), 0 < q := by
  intro q hq
  rw [List.mem_map] at hq
  obtain ⟨c, _, rfl⟩ := hq
  have h1 : (0 : ℚ) ≤ (c : ℚ) / (S : ℚ) := by positivity
  have h2 : (0 : ℚ) < eps := by norm_num [eps]
  linarith

theorem ePcts_pos (expected : List (Option ℚ)) (nBins : ℕ) :
    ∀ q ∈ ePcts expected nBins, 0 < q := pcts_pos _ _

theorem aPcts_pos (expected actual : List (Option ℚ)) (nBins : ℕ) :
    ∀ q ∈ aPcts expected actual nBins, 0 < q := pcts_pos _ _

theorem psi_term_nonneg {a e : ℚ} (ha : 0 < a) (he : 0 < e) :
    0 ≤ ((a : ℝ) - (e : ℝ)) * Real.log ((a : ℝ) / (e : ℝ)) := by
  have ha' : (0 : ℝ) < (a : ℝ) := by exact_mod_cast ha
  have he' : (0 : ℝ) < (e : ℝ) := by exact_mod_cast he
  rcases le_total (e : ℝ) (a : ℝ) with h | h
  · exact mul_nonneg (by linarith) (Real.log_nonneg ((one_le_div he').mpr h))
  · have h1 : ((a : ℝ) - (e : ℝ)) ≤ 0 := by linarith
    have h2 : Real.log ((a : ℝ) / (e : ℝ)) ≤ 0 :=
      Real.log_nonpos (by positivity) ((div_le_one he').mpr h)
    have h3 := mul_nonneg (neg_nonneg.mpr h1) (neg_nonneg.mpr h2)
    rwa [neg_mul_neg] at h3

theorem psiTerms_nonneg (expected actual : List (Option ℚ)) (nBins : ℕ) :
    ∀ t ∈ psiTerms expected actual nBins, 0 ≤ t := by
  intro t ht
  rw [psiTerms, List.mem_map] at ht
  obtain ⟨⟨a, e⟩, hmem, rfl⟩ := ht
  obtain ⟨hma, hme⟩ := List.of_mem_zip hmem
  exact psi_term_nonneg (aPcts_pos expected actual nBins a hma)
    (ePcts_pos expected nBins e hme)

theorem zip_self_map_sum_zero (f : ℚ × ℚ → ℝ) (hf : ∀ x : ℚ, f (x, x) = 0) :
    ∀ l : List ℚ, ((l.zip l).map f).sum = 0
  | [] => by simp
  | x :: xs => by
    rw [List.zip_cons_cons, List.map_cons, List.sum_cons, hf,
      zip_self_map_sum_zero f hf xs, add_zero]

theorem psiTerms_sum_zero_of_pcts_eq {expected actual : List (Option ℚ)} {nBins : ℕ}
    (h : aPcts expected actual nBins = ePcts expected nBins) :
    (psiTerms expected actual nBins).sum = 0 := by
  rw [psiTerms, h]
  apply zip_self_map_sum_zero
  intro x
  simp

theorem histogram_perm {v₁ v₂ : List ℚ} (h : v₁.Perm v₂) (E : List ERat) :
    histogram v₁ E = histogram v₂ E := by
  unfold histogram
  congr 1
  funext i
  exact h.countP_eq _

/-! ## Claim C2 -/

/-- C2: the PSI bin edges derived from the Baseline's non-null values (11
equally-spaced quantile cut points for 10 bins, outer edges replaced by
-inf/+inf, duplicates collapsed) form a strictly increasing sequence whose
first edge is -inf and last edge is +inf; every rational value falls in
exactly one bin; and the cohort side of `compute_psi` is binned with exactly
these Baseline-derived edges, whatever the cohort (`actual`) is. -/
theorem c2_psi_bin_edges (expected : List (Option ℚ))
    (_h : expected.reduceOption ≠ []) :
    (psiEdges expected 10).Sorted (· < ·) ∧
    (psiEdges expected 10).getD 0 ⊤ = ⊥ ∧
    (psiEdges expected 10).getD ((psiEdges expected 10).length - 1) ⊥ = ⊤ ∧
    (∀ v : ℚ, ∃! i, i < (psiEdges expected 10).length - 1 ∧
      binPred (psiEdges expected 10) i v) ∧
    (∀ actual : List (Option ℚ),
      aCounts expected actual 10 = histogram actual.reduceOption (psiEdges expected 10)) :=
  ⟨psiEdges_sorted _ _, psiEdges_head (by omega), psiEdges_last _ _,
    existsUnique_bin (psiEdges_sorted _ _) (psiEdges_head (by omega))
      (psiEdges_last _ _) (psiEdges_length (by omega)),
    fun _ => rfl⟩

/-- Witness for C2 at a concrete non-degenerate baseline. -/
theorem c2_witness :
    ∃! i, i < (psiEdges c8e 10).length - 1 ∧ binPred (psiEdges c8e 10) i 5 :=
  (c2_psi_bin_edges c8e (by decide)).2.2.2.1 5

/-! ## Claim C3 -/

/-- C3: with the 1e-4 additive smoothing every per-bin PSI term
`(a_pct - e_pct) * ln(a_pct / e_pct)` is non-negative, so the rounded PSI is
non-negative; and when the cohort's per-bin proportions equal the Baseline's
(in particular when the cohort consists of the same values as the Baseline),
the PSI is exactly 0. -/
theorem c3_psi_nonneg_and_zero (expected actual : List (Option ℚ))
    (_he : expected.reduceOption ≠ []) (_ha : actual.reduceOption ≠ []) :
    (∀ t ∈ psiTerms expected actual 10, 0 ≤ t) ∧
    0 ≤ compute_psi expected actual 10 ∧
    (aPcts expected actual 10 = ePcts expected 10 →
      compute_psi expected actual 10 = 0) ∧
    (actual.reduceOption.Perm expected.reduceOption →
      compute_psi expected actual 10 = 0) := by
  refine ⟨psiTerms_nonneg expected actual 10, ?_, ?_, ?_⟩
  · exact roundTo_nonneg (List.sum_nonneg (psiTerms_nonneg expected actual 10))
  · intro h
    rw [compute_psi, psiTerms_sum_zero_of_pcts_eq h, roundTo_zero]
  · intro h
    have hc : aCounts expected actual 10 = eCounts expected 10 := histogram_perm h _
    have hp : aPcts expected actual 10 = ePcts expected 10 := by
      rw [aPcts, ePcts, hc]
    rw [compute_psi, psiTerms_sum_zero_of_pcts_eq hp, roundTo_zero]

/-- Witness for C3 at concrete non-empty populations. -/
theorem c3_witness : 0 ≤ compute_psi c8e c8a 10 :=
  (c3_psi_nonneg_and_zero c8e c8a (by decide) (by decide)).2.1

/-! ## Claim C8 -/

/-- C8: under non-empty Baseline and cohort values, the PSI computation is
total with no degenerate case: the collapsed edge list still has at least two
edges, both histogram count sums equal the respective population sizes (hence
are non-zero, so neither proportion division is by zero), and with the 1e-4
smoothing every proportion is strictly positive, so no logarithm is taken of
zero or of a negative number. -/
theorem c8_psi_total (expected actual : List (Option ℚ))
    (he : expected.reduceOption ≠ []) (ha : actual.reduceOption ≠ []) :
    2 ≤ (psiEdges expected 10).length ∧
    (eCounts expected 10).sum = expected.reduceOption.length ∧
    (eCounts expected 10).sum ≠ 0 ∧
    (aCounts expected actual 10).sum = actual.reduceOption.length ∧
    (aCounts expected actual 10).sum ≠ 0 ∧
    (∀ q ∈ ePcts expected 10, 0 < q) ∧
    (∀ q ∈ aPcts expected actual 10, 0 < q) := by
  have hsE : (eCounts expected 10).sum = expected.reduceOption.length :=
    histogram_sum (psiEdges_sorted expected 10) (psiEdges_head (by omega))
      (psiEdges_last _ _) (psiEdges_length (by omega))
  have hsA : (aCounts expected actual 10).sum = actual.reduceOption.length :=
    histogram_sum (psiEdges_sorted expected 10) (psiEdges_head (by omega))
      (psiEdges_last _ _) (psiEdges_length (by omega))
  refine ⟨psiEdges_length (by omega), hsE, ?_, hsA, ?_,
    ePcts_pos expected 10, aPcts_pos expected actual 10⟩
  · rw [hsE]
    intro h
    exact he (List.length_eq_zero.mp h)
  · rw [hsA]
    intro h
    exact ha (List.length_eq_zero.mp h)

/-- Witness for C8 at concrete non-empty populations. -/
theorem c8_witness :
    (eCounts c8e 10).sum ≠ 0 ∧ (aCounts c8e c8a 10).sum ≠ 0 :=
  ⟨(c8_psi_total c8e c8a (by decide) (by decide)).2.2.1,
   (c8_psi_total c8e c8a (by decide) (by decide)).2.2.2.2.1⟩

/-! ## Group membership lemmas -/

theorem mem_groupKeys {α κ : Type} [DecidableEq κ] (le : κ → κ → Prop) [DecidableRel le]
    (key : α → κ) (df : List α) (c : κ) :
    c ∈ groupKeys le key df ↔ c ∈ df.map key := by
  unfold groupKeys
  rw [(List.perm_insertionSort _ _).mem_iff, List.mem_dedup]

theorem aucRowOf_eq_some {gran : Gran} {key : Record → Date} {df : List Record}
    {k : Date} {row : AucRow} :
    aucRowOf gran key df k = some row ↔
      (2 ≤ nuniqueFlags (df.filter (fun r => key r = k)) ∧
       30 ≤ (df.filter (fun r => key r = k)).length ∧
       row = ⟨k, gran, roundTo 4 (rocAucScore (df.filter (fun r => key r = k))),
         (df.filter (fun r => key r = k)).length,
         roundTo 4 (defaultRate (df.filter (fun r => key r = k)))⟩) := by
  simp only [aucRowOf]
  split_ifs with h
  · constructor
    · intro hc
      cases hc
    · rintro ⟨h1, h2, _⟩
      omega
  · push_neg at h
    rw [Option.some_inj]
    constructor
    · intro heq
      exact ⟨h.1, h.2, heq.symm⟩
    · rintro ⟨_, _, rfl⟩
      rfl

theorem aucRowsFor_gran {gran : Gran} {key : Record → Date} {df : List Record}
    {row : AucRow} (h : row ∈ aucRowsFor gran key df) : row.granularity = gran := by
  rw [aucRowsFor, List.mem_filterMap] at h
  obtain ⟨k, _, hFk⟩ := h
  rw [aucRowOf_eq_some] at hFk
  rw [hFk.2.2]

theorem mem_aucRowsFor {gran : Gran} {key : Record → Date} {df : List Record} {c : Date} :
    (∃ row ∈ aucRowsFor gran key df, row.period = c) ↔
      (2 ≤ nuniqueFlags (df.filter (fun r => key r = c)) ∧
       30 ≤ (df.filter (fun r => key r = c)).length) := by
  constructor
  · rintro ⟨row, hm, hp⟩
    rw [aucRowsFor, List.mem_filterMap] at hm
    obtain ⟨k, _, hFk⟩ := hm
    rw [aucRowOf_eq_some] at hFk
    obtain ⟨h1, h2, hrow⟩ := hFk
    have hkc : k = c := by rw [← hp, hrow]
    rw [← hkc]
    exact ⟨h1, h2⟩
  · rintro ⟨h1, h2⟩
    have hne : df.filter (fun r => key r = c) ≠ [] := by
      intro hnil
      rw [hnil] at h2
      simp at h2
    obtain ⟨r, hr⟩ := List.exists_mem_of_ne_nil _ hne
    rw [List.mem_filter] at hr
    have hkey : c ∈ groupKeys dateLe key df := by
      rw [mem_groupKeys, List.mem_map]
      exact ⟨r, hr.1, by simpa using hr.2⟩
    refine ⟨⟨c, gran, roundTo 4 (rocAucScore (df.filter (fun r => key r = c))),
      (df.filter (fun r => key r = c)).length,
      roundTo 4 (defaultRate (df.filter (fun r => key r = c)))⟩, ?_, rfl⟩
    rw [aucRowsFor, List.mem_filterMap]
    exact ⟨c, hkey, aucRowOf_eq_some.mpr ⟨h1, h2, rfl⟩⟩

theorem withRolling_toAucRow (df : List Record) (r : AucRow) :
    (withRolling df r).toAucRow = r := by
  unfold withRolling
  split <;> rfl

theorem mem_compute_auc_iff {df : List Record} {gran0 : Gran} {c : Date} :
    (∃ row ∈ compute_auc_by_cohort df, row.granularity = gran0 ∧ row.period = c) ↔
      (∃ r ∈ auc_df0 df, r.granularity = gran0 ∧ r.period = c) := by
  unfold compute_auc_by_cohort
  constructor
  · rintro ⟨row, hm, hg, hp⟩
    rw [List.mem_map] at hm
    obtain ⟨r, hr, rfl⟩ := hm
    rw [show (withRolling df r).granularity = r.granularity from
      congrArg AucRow.granularity (withRolling_toAucRow df r)] at hg
    rw [show (withRolling df r).period = r.period from
      congrArg AucRow.period (withRolling_toAucRow df r)] at hp
    exact ⟨r, hr, hg, hp⟩
  · rintro ⟨r, hr, hg, hp⟩
    refine ⟨withRolling df r, List.mem_map_of_mem _ hr, ?_, ?_⟩
    · rw [show (withRolling df r).granularity = r.granularity from
        congrArg AucRow.granularity (withRolling_toAucRow df r)]
      exact hg
    · rw [show (withRolling df r).period = r.period from
        congrArg AucRow.period (withRolling_toAucRow df r)]
      exact hp

theorem mem_auc_df0_month {df : List Record} {c : Date} :
    (∃ r ∈ auc_df0 df, r.granularity = Gran.month ∧ r.period = c) ↔
      (∃ r ∈ aucRowsFor Gran.month cohortM df, r.period = c) := by
  unfold auc_df0
  constructor
  · rintro ⟨r, hm, hg, hp⟩
    rw [List.mem_append] at hm
    rcases hm with h | h
    · exact ⟨r, h, hp⟩
    · rw [aucRowsFor_gran h] at hg
      cases hg
  · rintro ⟨r, hm, hp⟩
    exact ⟨r, List.mem_append_left _ hm, aucRowsFor_gran hm, hp⟩

theorem mem_auc_df0_quarter {df : List Record} {c : Date} :
    (∃ r ∈ auc_df0 df, r.granularity = Gran.quarter ∧ r.period = c) ↔
      (∃ r ∈ aucRowsFor Gran.quarter cohortQ df, r.period = c) := by
  unfold auc_df0
  constructor
  · rintro ⟨r, hm, hg, hp⟩
    rw [List.mem_append] at hm
    rcases hm with h | h
    · rw [aucRowsFor_gran h] at hg
      cases hg
    · exact ⟨r, h, hp⟩
  · rintro ⟨r, hm, hp⟩
    exact ⟨r, List.mem_append_right _ hm, aucRowsFor_gran hm, hp⟩

theorem gradeRowOf_eq_some {df : List Record} {k : Date × ℕ} {row : AucGradeRow} :
    gradeRowOf df k = some row ↔
      (2 ≤ nuniqueFlags (df.filter (fun r => (cohortM r, r.grade) = k)) ∧
       20 ≤ (df.filter (fun r => (cohortM r, r.grade) = k)).length ∧
       row = ⟨k.1, k.2,
         roundTo 4 (rocAucScore (df.filter (fun r => (cohortM r, r.grade) = k))),
         (df.filter (fun r => (cohortM r, r.grade) = k)).length,
         roundTo 4 (defaultRate (df.filter (fun r => (cohortM r, r.grade) = k)))⟩) := by
  simp only [gradeRowOf]
  split_ifs with h
  · constructor
    · intro hc
      cases hc
    · rintro ⟨h1, h2, _⟩
      omega
  · push_neg at h
    rw [Option.some_inj]
    constructor
    · intro heq
      exact ⟨h.1, h.2, heq.symm⟩
    · rintro ⟨_, _, rfl⟩
      rfl

theorem mem_grade_rows {df : List Record} {c : Date} {gr : ℕ} :
    (∃ row ∈ compute_auc_by_cohort_grade df, row.period = c ∧ row.grade = gr) ↔
      (2 ≤ nuniqueFlags (df.filter (fun r => (cohortM r, r.grade) = (c, gr))) ∧
       20 ≤ (df.filter (fun r => (cohortM r, r.grade) = (c, gr))).length) := by
  constructor
  · rintro ⟨row, hm, hp, hg⟩
    rw [compute_auc_by_cohort_grade, List.mem_filterMap] at hm
    obtain ⟨k, _, hFk⟩ := hm
    rw [gradeRowOf_eq_some] at hFk
    obtain ⟨h1, h2, hrow⟩ := hFk
    have hk : k = (c, gr) := by
      have hk1 : row.period = k.1 := by rw [hrow]
      have hk2 : row.grade = k.2 := by rw [hrow]
      rw [hp] at hk1
      rw [hg] at hk2
      exact Prod.ext hk1.symm hk2.symm
    rw [← hk]
    exact ⟨h1, h2⟩
  · rintro ⟨h1, h2⟩
    have hne : df.filter (fun r => (cohortM r, r.grade) = (c, gr)) ≠ [] := by
      intro hnil
      rw [hnil] at h2
      simp at h2
    obtain ⟨r, hr⟩ := List.exists_mem_of_ne_nil _ hne
    rw [List.mem_filter] at hr
    have hkey : (c, gr) ∈ groupKeys gradeKeyLe (fun r => (cohortM r, r.grade)) df := by
      rw [mem_groupKeys, List.mem_map]
      exact ⟨r, hr.1, by simpa using hr.2⟩
    refine ⟨⟨c, gr,
      roundTo 4 (rocAucScore (df.filter (fun r => (cohortM r, r.grade) = (c, gr)))),
      (df.filter (fun r => (cohortM r, r.grade) = (c, gr))).length,
      roundTo 4 (defaultRate (df.filter (fun r => (cohortM r, r.grade) = (c, gr))))⟩,
      ?_, rfl, rfl⟩
    rw [compute_auc_by_cohort_grade, List.mem_filterMap]
    exact ⟨(c, gr), hkey, gradeRowOf_eq_some.mpr ⟨h1, h2, rfl⟩⟩

/-! ## Claim C5 -/

/-- C5: an AUC row is produced for a cohort (monthly or quarterly) if and
only if the cohort has at least two distinct outcome classes and at least 30
records; a (cohort, grade) segment row is produced iff the segment group has
both classes and at least 20 records; failing groups are silently skipped.
Concretely, 25 records with both classes yield no whole-cohort row but do
yield a segment row with n_loans = 25. -/
theorem c5_auc_guard :
    (∀ (df : List Record) (c : Date),
      (∃ row ∈ compute_auc_by_cohort df,
          row.granularity = Gran.month ∧ row.period = c) ↔
        (2 ≤ nuniqueFlags (df.filter (fun r => cohortM r = c)) ∧
         30 ≤ (df.filter (fun r => cohortM r = c)).length)) ∧
    (∀ (df : List Record) (c : Date),
      (∃ row ∈ compute_auc_by_cohort df,
          row.granularity = Gran.quarter ∧ row.period = c) ↔
        (2 ≤ nuniqueFlags (df.filter (fun r => cohortQ r = c)) ∧
         30 ≤ (df.filter (fun r => cohortQ r = c)).length)) ∧
    (∀ (df : List Record) (c : Date) (gr : ℕ),
      (∃ row ∈ compute_auc_by_cohort_grade df, row.period = c ∧ row.grade = gr) ↔
        (2 ≤ nuniqueFlags (df.filter (fun r => (cohortM r, r.grade) = (c, gr))) ∧
         20 ≤ (df.filter (fun r => (cohortM r, r.grade) = (c, gr))).length)) ∧
    compute_auc_by_cohort c5df = [] ∧
    (∃ row ∈ compute_auc_by_cohort_grade c5df,
      row.period = ⟨2015, 3, 1⟩ ∧ row.grade = 1 ∧ row.n_loans = 25) := by
  refine ⟨?_, ?_, ?_, by decide, by decide⟩
  · intro df c
    rw [mem_compute_auc_iff, mem_auc_df0_month, mem_aucRowsFor]
  · intro df c
    rw [mem_compute_auc_iff, mem_auc_df0_quarter, mem_aucRowsFor]
  · intro df c gr
    exact mem_grade_rows

/-! ## AUC range lemmas -/

theorem pairScore_nonneg (p n : ℚ) : 0 ≤ pairScore p n := by
  unfold pairScore
  split_ifs <;> norm_num

theorem pairScore_le_one (p n : ℚ) : pairScore p n ≤ 1 := by
  unfold pairScore
  split_ifs <;> norm_num

theorem list_sum_le_length_mul {l : List ℚ} {c : ℚ} (h : ∀ x ∈ l, x ≤ c) :
    l.sum ≤ (l.length : ℚ) * c := by
  induction l with
  | nil => simp
  | cons x xs ih =>
    rw [List.sum_cons, List.length_cons]
    have hx := h x (List.mem_cons_self x xs)
    have hxs := ih (fun y hy => h y (List.mem_cons_of_mem x hy))
    push_cast
    linarith

theorem list_sum_eq_length_mul {l : List ℚ} {c : ℚ} (h : ∀ x ∈ l, x = c) :
    l.sum = (l.length : ℚ) * c := by
  induction l with
  | nil => simp
  | cons x xs ih =>
    rw [List.sum_cons, List.length_cons, h x (List.mem_cons_self x xs),
      ih (fun y hy => h y (List.mem_cons_of_mem x hy))]
    push_cast
    ring

theorem bool_list_two_mem {l : List Bool} (h : 2 ≤ l.dedup.length) :
    true ∈ l ∧ false ∈ l := by
  rcases hm : l.dedup with _ | ⟨x, _ | ⟨y, t⟩⟩
  · rw [hm] at h
    simp at h
  · rw [hm] at h
    simp at h
  · have hnd := List.nodup_dedup l
    rw [hm] at hnd
    have hxy : x ≠ y := by
      intro he
      exact (he ▸ (List.nodup_cons.mp hnd).1) (List.mem_cons_self y t)
    have hxm : x ∈ l := List.mem_dedup.mp (by rw [hm]; exact List.mem_cons_self _ _)
    have hym : y ∈ l :=
      List.mem_dedup.mp (by rw [hm]; exact List.mem_cons_of_mem _ (List.mem_cons_self _ _))
    cases x <;> cases y
    · exact absurd rfl hxy
    · exact ⟨hym, hxm⟩
    · exact ⟨hxm, hym⟩
    · exact absurd rfl hxy

theorem both_classes_of_nunique {g : List Record} (h : 2 ≤ nuniqueFlags g) :
    posProbs g ≠ [] ∧ negProbs g ≠ [] := by
  obtain ⟨ht, hf⟩ := bool_list_two_mem h
  rw [List.mem_map] at ht hf
  obtain ⟨rt, hrt, hflagt⟩ := ht
  obtain ⟨rf, hrf, hflagf⟩ := hf
  constructor
  · apply List.ne_nil_of_mem (a := rt.pred_default_prob)
    exact List.mem_map_of_mem _ (List.mem_filter.mpr ⟨hrt, hflagt⟩)
  · apply List.ne_nil_of_mem (a := rf.pred_default_prob)
    apply List.mem_map_of_mem _ (List.mem_filter.mpr ⟨hrf, ?_⟩)
    rw [hflagf]
    rfl

/-! ## Claim C6 -/

/-- C6: for a cohort with both outcome classes present (which the AUC guard
ensures), the rank-based AUC with half-credit for ties lies in [0, 1], and a
perfectly separable group (every positive probability above every negative
one) has AUC exactly 1. -/
theorem c6_auc_range (g : List Record) (h : 2 ≤ nuniqueFlags g) :
    0 ≤ rocAucScore g ∧ rocAucScore g ≤ 1 ∧
      ((∀ p ∈ posProbs g, ∀ n ∈ negProbs g, n < p) → rocAucScore g = 1) := by
  obtain ⟨hp, hn⟩ := both_classes_of_nunique h
  have hP : 0 < ((posProbs g).length : ℚ) := by
    exact_mod_cast List.length_pos.mpr hp
  have hN : 0 < ((negProbs g).length : ℚ) := by
    exact_mod_cast List.length_pos.mpr hn
  have hinner_nonneg : ∀ x ∈ (posProbs g).map
      (fun p => ((negProbs g).map (fun n => pairScore p n)).sum), 0 ≤ x := by
    intro x hx
    rw [List.mem_map] at hx
    obtain ⟨p, _, rfl⟩ := hx
    apply List.sum_nonneg
    intro y hy
    rw [List.mem_map] at hy
    obtain ⟨n, _, rfl⟩ := hy
    exact pairScore_nonneg p n
  have hinner_le : ∀ x ∈ (posProbs g).map
      (fun p => ((negProbs g).map (fun n => pairScore p n)).sum), x ≤
      ((negProbs g).length : ℚ) := by
    intro x hx
    rw [List.mem_map] at hx
    obtain ⟨p, _, rfl⟩ := hx
    have h1 : ∀ y ∈ (negProbs g).map (fun n => pairScore p n), y ≤ 1 := by
      intro y hy
      rw [List.mem_map] at hy
      obtain ⟨n, _, rfl⟩ := hy
      exact pairScore_le_one p n
    have h2 := list_sum_le_length_mul h1
    rwa [List.length_map, mul_one] at h2
  have hS_nonneg : 0 ≤ ((posProbs g).map
      (fun p => ((negProbs g).map (fun n => pairScore p n)).sum)).sum :=
    List.sum_nonneg hinner_nonneg
  have hS_le := list_sum_le_length_mul hinner_le
  rw [List.length_map] at hS_le
  refine ⟨?_, ?_, ?_⟩
  · unfold rocAucScore
    positivity
  · unfold rocAucScore
    rw [div_le_one (by positivity)]
    exact hS_le
  · intro hsep
    have hall : ∀ x ∈ (posProbs g).map
        (fun p => ((negProbs g).map (fun n => pairScore p n)).sum), x =
        ((negProbs g).length : ℚ) := by
      intro x hx
      rw [List.mem_map] at hx
      obtain ⟨p, hpm, rfl⟩ := hx
      have h1 : ∀ y ∈ (negProbs g).map (fun n => pairScore p n), y = 1 := by
        intro y hy
        rw [List.mem_map] at hy
        obtain ⟨n, hnm, rfl⟩ := hy
        unfold pairScore
        rw [if_pos (hsep p hpm n hnm)]
      have h2 := list_sum_eq_length_mul h1
      rwa [List.length_map, mul_one] at h2
    have hS := list_sum_eq_length_mul hall
    rw [List.length_map] at hS
    unfold rocAucScore
    rw [hS, div_self (by positivity)]

set_option maxRecDepth 40000 in
unseal Rat.mul Rat.add Rat.inv Rat.sub in
/-- Witness for C6 at a concrete separable group. -/
theorem c6_witness : 2 ≤ nuniqueFlags c6g ∧ rocAucScore c6g = 1 :=
  ⟨by decide, (c6_auc_range c6g (by decide)).2.2 (by decide)⟩

/-! ## Rolling smoother lemmas -/

theorem rolling3_length (xs : List ℚ) : (rolling3 xs).length = xs.length := by
  unfold rolling3
  rw [List.length_map, List.length_range]

theorem rolling3_getD {xs : List ℚ} {i : ℕ} (h : i < xs.length) :
    (rolling3 xs).getD i 0 =
      roundTo 4 (((xs.take (i + 1)).drop (i + 1 - 3)).sum /
        ((((xs.take (i + 1)).drop (i + 1 - 3)).length : ℚ))) := by
  have hlen : i < (rolling3 xs).length := by rw [rolling3_length]; exact h
  rw [List.getD_eq_getElem _ _ hlen]
  unfold rolling3
  simp only [List.getElem_map, List.getElem_range]

theorem window_first {xs : List ℚ} (h : 0 < xs.length) :
    (xs.take (0 + 1)).drop (0 + 1 - 3) = [xs.getD 0 0] := by
  cases xs with
  | nil => simp at h
  | cons x t => simp

theorem window_second {xs : List ℚ} (h : 1 < xs.length) :
    (xs.take (1 + 1)).drop (1 + 1 - 3) = [xs.getD 0 0, xs.getD 1 0] := by
  cases xs with
  | nil => simp at h
  | cons x t =>
    cases t with
    | nil => simp at h
    | cons y s => simp

theorem window_later {xs : List ℚ} {i : ℕ} (h2 : 2 ≤ i) (h : i < xs.length) :
    (xs.take (i + 1)).drop (i + 1 - 3) =
      [xs.getD (i - 2) 0, xs.getD (i - 1) 0, xs.getD i 0] := by
  have he : i + 1 - 3 = i - 2 := by omega
  have hmn : (i - 2) + 3 = i + 1 := by omega
  rw [he, ← hmn, ← List.take_drop]
  have hi2 : i - 2 < xs.length := by omega
  have hi1 : i - 1 < xs.length := by omega
  rw [List.drop_eq_getElem_cons hi2]
  have hstep1 : i - 2 + 1 = i - 1 := by omega
  rw [hstep1, List.drop_eq_getElem_cons hi1]
  have hstep2 : i - 1 + 1 = i := by omega
  rw [hstep2, List.drop_eq_getElem_cons h]
  rw [List.take_succ_cons, List.take_succ_cons, List.take_succ_cons, List.take_zero]
  rw [List.getD_eq_getElem _ _ hi2, List.getD_eq_getElem _ _ hi1,
    List.getD_eq_getElem _ _ h]

/-! ## Claim C4 (amended) -/

unseal Rat.mul Rat.add Rat.inv Rat.sub in
/-- C4 (amended): the rolling smoother is a trailing window-3 simple moving
average with min_periods = 1 whose output is rounded to 4 decimal digits:
the first value is the rounded first raw value, the second is the rounded
mean of the first two, each later value is the rounded mean of exactly the 3
trailing raw values, and on [0.70, 0.68, 0.66, 0.64] (where the rounding is
exact) the output is [0.70, 0.69, 0.68, 0.66]. -/
theorem c4_rolling3_rounded (xs : List ℚ) :
    (rolling3 xs).length = xs.length ∧
    (0 < xs.length → (rolling3 xs).getD 0 0 = roundTo 4 (xs.getD 0 0)) ∧
    (1 < xs.length →
      (rolling3 xs).getD 1 0 = roundTo 4 ((xs.getD 0 0 + xs.getD 1 0) / 2)) ∧
    (∀ i, 2 ≤ i → i < xs.length → (rolling3 xs).getD i 0 =
      roundTo 4 ((xs.getD (i - 2) 0 + xs.getD (i - 1) 0 + xs.getD i 0) / 3)) ∧
    rolling3 [7/10, 68/100, 66/100, 64/100] = [7/10, 69/100, 68/100, 66/100] := by
  refine ⟨rolling3_length xs, ?_, ?_, ?_, by decide⟩
  · intro h
    rw [rolling3_getD h, window_first h]
    congr 1
    simp
  · intro h
    rw [rolling3_getD h, window_second h]
    congr 1
    simp only [List.sum_cons, List.sum_nil, List.length_cons, List.length_nil, add_zero]
    push_cast
    ring
  · intro i h2 h
    rw [rolling3_getD h, window_later h2 h]
    congr 1
    simp only [List.sum_cons, List.sum_nil, List.length_cons, List.length_nil, add_zero]
    push_cast
    ring

set_option maxRecDepth 40000 in
unseal Rat.mul Rat.add Rat.inv Rat.sub in
/-- Counterexample to C4 as stated: with raw values [0.1234, 0.1235] the
second smoothed value is the half-even-rounded mean 0.1234, not the exact
mean 0.12345. -/
theorem c4_counterexample :
    (rolling3 [1234 / 10000, 1235 / 10000]).getD 1 0 ≠
      ((1234 / 10000 : ℚ) + 1235 / 10000) / 2 := by decide

/-- Witness for C4 at a concrete series. -/
theorem c4_witness :
    2 < [(1 : ℚ), 2, 3].length ∧ (rolling3 [(1 : ℚ), 2, 3]).getD 2 0 =
      roundTo 4 (([(1 : ℚ), 2, 3].getD 0 0 + [(1 : ℚ), 2, 3].getD 1 0 +
        [(1 : ℚ), 2, 3].getD 2 0) / 3) :=
  ⟨by decide, (c4_rolling3_rounded [1, 2, 3]).2.2.2.1 2 (by omega) (by decide)⟩

/-! ## Claim C1 (corrected) -/

set_option maxRecDepth 100000 in
unseal Rat.mul Rat.add Rat.inv Rat.sub in
/-- Counterexample to C1 as stated: in `c1df` the 2015Q1 quarterly row
survives the AUC guard, yet its `auc_rolling3` is the January monthly
rolling value 1, not its own raw `auc` of 15/16 — the period-only merge
matches the quarter start with the first month of the quarter. -/
theorem c1_counterexample :
    ∃ row ∈ compute_auc_by_cohort c1df,
      row.granularity = Gran.quarter ∧ row.auc_rolling3 ≠ row.auc := by decide

/-- C1 (amended): a quarterly row's `auc_rolling3` is the monthly rolling
value of the monthly row sharing its period when such a row exists (the
quarter's first month), and only falls back to the row's own raw `auc` when
no monthly row shares the period. -/
theorem c1_quarterly_rolling (df : List Record) (row : AucRowR)
    (hm : row ∈ compute_auc_by_cohort df) (_hq : row.granularity = Gran.quarter) :
    row.auc_rolling3 =
      (((monthlyRolling df).find? (fun pr => decide (pr.1 = row.period))).map
        Prod.snd).getD row.auc := by
  rw [compute_auc_by_cohort, List.mem_map] at hm
  obtain ⟨r, _, rfl⟩ := hm
  rw [show (withRolling df r).period = r.period from
    congrArg AucRow.period (withRolling_toAucRow df r)]
  rw [show (withRolling df r).auc = r.auc from
    congrArg AucRow.auc (withRolling_toAucRow df r)]
  unfold withRolling
  rcases hf : (monthlyRolling df).find? (fun pr => decide (pr.1 = r.period)) with _ | pr
  · rw [hf]
    rfl
  · rw [hf]
    rfl

set_option maxRecDepth 100000 in
unseal Rat.mul Rat.add Rat.inv Rat.sub in
/-- Witness for C1 (amended) at the concrete dataset `c1df` and its
quarterly row. -/
theorem c1_witness :
    c1row ∈ compute_auc_by_cohort c1df ∧ c1row.granularity = Gran.quarter ∧
      c1row.auc_rolling3 =
        (((monthlyRolling c1df).find? (fun pr => decide (pr.1 = c1row.period))).map
          Prod.snd).getD c1row.auc :=
  ⟨by decide, rfl, c1_quarterly_rolling c1df c1row (by decide) rfl⟩

/-! ## PSI row membership lemmas -/

theorem feat_mem_drift (f : Feat) : f ∈ DRIFT_FEATURES := by
  cases f <;> decide

theorem psiRowOf_eq_some {f : Feat} {df : List Record} {c : Date} {row : PsiRow} :
    psiRowOf f df c = some row ↔
      (10 ≤ (actualCol f df c).length ∧
       row = ⟨c, f, compute_psi (baselineCol f df) (actualCol f df c),
         (actualCol f df c).length⟩) := by
  simp only [psiRowOf]
  split_ifs with h
  · constructor
    · intro hc
      cases hc
    · rintro ⟨h1, _⟩
      omega
  · push_neg at h
    rw [Option.some_inj]
    constructor
    · intro heq
      exact ⟨h, heq.symm⟩
    · rintro ⟨_, rfl⟩
      rfl

theorem actualCol_group_ne_nil {f : Feat} {df : List Record} {c : Date}
    (h : 10 ≤ (actualCol f df c).length) :
    df.filter (fun r => cohortM r = c) ≠ [] := by
  intro hnil
  unfold actualCol featCol at h
  rw [hnil] at h
  simp [dropna] at h

theorem mem_psi_rows_iff (df : List Record) (c : Date) (f : Feat) :
    (∃ row ∈ compute_psi_by_cohort df, row.period = c ∧ row.feature = f) ↔
      10 ≤ (actualCol f df c).length := by
  constructor
  · rintro ⟨row, hm, hp, hf⟩
    rw [compute_psi_by_cohort, List.mem_flatMap] at hm
    obtain ⟨f', _, hmem⟩ := hm
    rw [List.mem_filterMap] at hmem
    obtain ⟨k, _, hrow⟩ := hmem
    rw [psiRowOf_eq_some] at hrow
    obtain ⟨hg, hroweq⟩ := hrow
    have hkc : k = c := by
      rw [hroweq] at hp
      exact hp
    have hff : f' = f := by
      rw [hroweq] at hf
      exact hf
    rw [← hkc, ← hff]
    exact hg
  · intro hg
    obtain ⟨r, hr⟩ := List.exists_mem_of_ne_nil _ (actualCol_group_ne_nil hg)
    rw [List.mem_filter] at hr
    have hkey : c ∈ groupKeys dateLe cohortM df := by
      rw [mem_groupKeys, List.mem_map]
      exact ⟨r, hr.1, by simpa using hr.2⟩
    refine ⟨⟨c, f, compute_psi (baselineCol f df) (actualCol f df c),
      (actualCol f df c).length⟩, ?_, rfl, rfl⟩
    rw [compute_psi_by_cohort, List.mem_flatMap]
    refine ⟨f, feat_mem_drift f, ?_⟩
    rw [List.mem_filterMap]
    exact ⟨c, hkey, psiRowOf_eq_some.mpr ⟨hg, rfl⟩⟩

/-! ## Claim C7 -/

/-- C7: a PSI row for (feature, monthly cohort) is produced iff the cohort
has at least 10 non-null observations of that feature (below the threshold
the pair is silently skipped), and every produced row carries the PSI value
rounded to 6 decimal digits together with n_obs equal to the cohort's
non-null observation count. -/
theorem c7_psi_guard (df : List Record) (c : Date) (f : Feat) :
    ((∃ row ∈ compute_psi_by_cohort df, row.period = c ∧ row.feature = f) ↔
      10 ≤ (actualCol f df c).length) ∧
    (∀ row ∈ compute_psi_by_cohort df, row.period = c → row.feature = f →
      row.psi = roundTo 6 (psiTerms (baselineCol f df) (actualCol f df c) 10).sum ∧
      row.n_obs = (actualCol f df c).length) := by
  refine ⟨mem_psi_rows_iff df c f, ?_⟩
  intro row hm hp hf
  rw [compute_psi_by_cohort, List.mem_flatMap] at hm
  obtain ⟨f', _, hmem⟩ := hm
  rw [List.mem_filterMap] at hmem
  obtain ⟨k, _, hrow⟩ := hmem
  rw [psiRowOf_eq_some] at hrow
  obtain ⟨_, hroweq⟩ := hrow
  have hkc : k = c := by
    rw [hroweq] at hp
    exact hp
  have hff : f' = f := by
    rw [hroweq] at hf
    exact hf
  subst hkc
  subst hff
  rw [hroweq]
  exact ⟨rfl, rfl⟩

/-- Witness for C7 at a concrete cohort with exactly 10 non-null values. -/
theorem c7_witness :
    ∃ row ∈ compute_psi_by_cohort c10df,
      row.period = ⟨2013, 5, 1⟩ ∧ row.feature = Feat.dti :=
  ((c7_psi_guard c10df ⟨2013, 5, 1⟩ Feat.dti).1).mpr (by decide)

/-! ## Claim C10 -/

/-- C10: the PSI table is not restricted to monitoring-period cohorts — the
row-production guard is the same 10-observation rule for every monthly
cohort, including one lying entirely inside the training years, and such a
training-period cohort's non-null values are contained (as a sub-multiset)
in the very baseline it is compared against. -/
theorem c10_psi_training (df : List Record) (c : Date) (f : Feat)
    (htrain : ∀ r ∈ df, cohortM r = c → r.year ∈ TRAIN_YEARS) :
    ((∃ row ∈ compute_psi_by_cohort df, row.period = c ∧ row.feature = f) ↔
      10 ≤ (actualCol f df c).length) ∧
    (actualCol f df c).Subperm (baselineCol f df) := by
  refine ⟨mem_psi_rows_iff df c f, ?_⟩
  have hsub : List.Sublist (df.filter (fun r => cohortM r = c))
      (df.filter (fun r => r.year ∈ TRAIN_YEARS)) := by
    have heq : df.filter (fun r => cohortM r = c) =
        (df.filter (fun r => r.year ∈ TRAIN_YEARS)).filter
          (fun r => cohortM r = c) := by
      rw [List.filter_filter]
      apply List.filter_congr
      intro r hr
      rcases hcc : decide (cohortM r = c) with _ | _
      · simp
      · have h1 : cohortM r = c := of_decide_eq_true hcc
        have h2 := htrain r hr h1
        simp [h2]
    rw [heq]
    exact List.filter_sublist _
  unfold actualCol baselineCol featCol dropna
  exact ((hsub.map (featVal f)).filter _).subperm

/-- Witness for C10 at a concrete all-training-years dataset. -/
theorem c10_witness :
    (actualCol Feat.dti c10df ⟨2013, 5, 1⟩).Subperm (baselineCol Feat.dti c10df) :=
  (c10_psi_training c10df ⟨2013, 5, 1⟩ Feat.dti (by decide)).2

/-! ## Sampler lemmas -/

theorem sampleWR_length {α : Type} (seed n : ℕ) (l : List α) :
    (sampleWR seed n l).length = min n l.length := by
  induction n generalizing seed l with
  | zero => simp [sampleWR]
  | succ m ih =>
    cases l with
    | nil => simp [sampleWR]
    | cons x xs =>
      simp only [sampleWR, ih, List.length_eraseIdx, List.length_cons]
      have hlt : seed % (xs.length + 1) < xs.length + 1 := Nat.mod_lt _ (by omega)
      rw [if_pos hlt]
      omega

theorem perm_getElem_cons_eraseIdx {α : Type} {l : List α} {i : ℕ} (h : i < l.length) :
    l.Perm (l.get ⟨i, h⟩ :: l.eraseIdx i) := by
  conv_lhs => rw [← List.take_append_drop i l, List.drop_eq_getElem_cons h]
  rw [List.eraseIdx_eq_take_drop_succ, List.get_eq_getElem]
  exact List.perm_middle

theorem sampleWR_subperm {α : Type} (seed n : ℕ) (l : List α) :
    (sampleWR seed n l).Subperm l := by
  induction n generalizing seed l with
  | zero => simp [sampleWR]
  | succ m ih =>
    cases l with
    | nil => simp [sampleWR]
    | cons x xs =>
      simp only [sampleWR]
      have hlt : seed % (x :: xs).length < (x :: xs).length :=
        Nat.mod_lt _ (by simp)
      rw [List.getD_eq_getElem _ _ hlt]
      have h1 := (List.subperm_cons ((x :: xs)[seed % (x :: xs).length])).mpr
        (ih (lcgNext seed) ((x :: xs).eraseIdx (seed % (x :: xs).length)))
      refine h1.trans ?_
      have h2 := perm_getElem_cons_eraseIdx hlt
      exact (h2.symm).subperm

theorem subperm_append {α : Type} {l₁ l₂ r₁ r₂ : List α}
    (h₁ : l₁.Subperm l₂) (h₂ : r₁.Subperm r₂) : (l₁ ++ r₁).Subperm (l₂ ++ r₂) := by
  obtain ⟨w₁, hp₁, hs₁⟩ := h₁
  obtain ⟨w₂, hp₂, hs₂⟩ := h₂
  exact ⟨w₁ ++ w₂, hp₁.append hp₂, hs₁.append hs₂⟩

theorem flatMap_congr {α β : Type} {l : List α} {f g : α → List β}
    (h : ∀ a ∈ l, f a = g a) : l.flatMap f = l.flatMap g := by
  induction l with
  | nil => rfl
  | cons x xs ih =>
    rw [List.flatMap_cons, List.flatMap_cons, h x (List.mem_cons_self x xs),
      ih (fun a ha => h a (List.mem_cons_of_mem x ha))]

theorem flatMap_subperm {α β : Type} {l : List α} {F G : α → List β}
    (h : ∀ a ∈ l, (F a).Subperm (G a)) : (l.flatMap F).Subperm (l.flatMap G) := by
  induction l with
  | nil => exact List.Subperm.refl _
  | cons x xs ih =>
    rw [List.flatMap_cons, List.flatMap_cons]
    exact subperm_append (h x (List.mem_cons_self x xs))
      (ih (fun a ha => h a (List.mem_cons_of_mem x ha)))

theorem groupKeys_nodup {α κ : Type} [DecidableEq κ] (le : κ → κ → Prop)
    [DecidableRel le] (key : α → κ) (df : List α) : (groupKeys le key df).Nodup :=
  ((List.perm_insertionSort _ _).nodup_iff).mpr (List.nodup_dedup _)

theorem mem_block_label {dfOut : List DistRow} {lab : String} {r : DistRow}
    (hr : r ∈ dfSample (dfOut.filter (fun x => x.period_label = lab))
      (min (dfOut.filter (fun x => x.period_label = lab)).length 5000)) :
    r.period_label = lab := by
  have hmem := (sampleWR_subperm 42 _ _).subset hr
  rw [List.mem_filter] at hmem
  exact of_decide_eq_true hmem.2

theorem filter_flatMap_blocks (dfOut : List DistRow) (lab₀ : String) :
    ∀ labels : List String, labels.Nodup →
    ((labels.flatMap (fun lab =>
        dfSample (dfOut.filter (fun r => r.period_label = lab))
          (min (dfOut.filter (fun r => r.period_label = lab)).length 5000))).filter
      (fun r => r.period_label = lab₀)).length =
      (if lab₀ ∈ labels
       then min (dfOut.filter (fun r => r.period_label = lab₀)).length 5000 else 0)
  | [], _ => by simp
  | lab :: rest, hnd => by
    rw [List.flatMap_cons, List.filter_append, List.length_append,
      filter_flatMap_blocks dfOut lab₀ rest hnd.of_cons]
    by_cases hl : lab = lab₀
    · subst hl
      rw [if_neg (List.nodup_cons.mp hnd).1, if_pos (List.mem_cons_self _ _), add_zero]
      rw [List.filter_eq_self.mpr (fun r hr => decide_eq_true (mem_block_label hr))]
      rw [show dfSample (dfOut.filter (fun r => r.period_label = lab))
            (min (dfOut.filter (fun r => r.period_label = lab)).length 5000) =
          sampleWR 42 (min (dfOut.filter (fun r => r.period_label = lab)).length 5000)
            (dfOut.filter (fun r => r.period_label = lab)) from rfl, sampleWR_length]
      omega
    · rw [List.filter_eq_nil_iff.mpr (fun r hr hp => by
        have h1 : r.period_label = lab := mem_block_label hr
        have h2 : r.period_label = lab₀ := of_decide_eq_true hp
        exact hl (h1.symm.trans h2)), List.length_nil, zero_add]
      by_cases hmem : lab₀ ∈ rest
      · rw [if_pos hmem, if_pos (List.mem_cons_of_mem _ hmem)]
      · rw [if_neg hmem, if_neg (fun hc => by
          rcases List.mem_cons.mp hc with h | h
          · exact hl h.symm
          · exact hmem h)]

theorem flatMap_filter_perm :
    ∀ (labels : List String) (dfOut : List DistRow), labels.Nodup →
    (∀ r ∈ dfOut, r.period_label ∈ labels) →
    (labels.flatMap (fun lab =>
      dfOut.filter (fun r => r.period_label = lab))).Perm dfOut
  | [], dfOut, _, hcov => by
    have hnil : dfOut = [] := by
      cases dfOut with
      | nil => rfl
      | cons r t => exact absurd (hcov r (List.mem_cons_self r t)) (List.not_mem_nil _)
    rw [hnil]
    simp
  | lab :: rest, dfOut, hnd, hcov => by
    rw [List.flatMap_cons]
    have hfe : ∀ lab' ∈ rest, dfOut.filter (fun r => r.period_label = lab') =
        (dfOut.filter (fun r => !(decide (r.period_label = lab)))).filter
          (fun r => r.period_label = lab') := by
      intro lab' hl'
      have hne : lab' ≠ lab := fun he => (List.nodup_cons.mp hnd).1 (he ▸ hl')
      rw [List.filter_filter]
      apply List.filter_congr
      intro r _
      by_cases hc : r.period_label = lab'
      · simp [hc, hne]
      · simp [hc]
    have hcov' : ∀ r ∈ dfOut.filter (fun r => !(decide (r.period_label = lab))),
        r.period_label ∈ rest := by
      intro r hr
      rw [List.mem_filter] at hr
      have hne : ¬ (r.period_label = lab) := by
        have := hr.2
        simp at this
        exact this
      rcases List.mem_cons.mp (hcov r hr.1) with h | h
      · exact absurd h hne
      · exact h
    rw [flatMap_congr hfe]
    refine List.Perm.trans
      (List.Perm.append_left _ (flatMap_filter_perm rest _ hnd.of_cons hcov')) ?_
    exact List.filter_append_perm _ dfOut

theorem distributions_stratum_length (df : List Record) (lab : String) :
    ((compute_feature_distributions df).filter
      (fun r => r.period_label = lab)).length =
      min ((df.map toDistRow).filter (fun r => r.period_label = lab)).length 5000 := by
  simp only [compute_feature_distributions]
  rw [filter_flatMap_blocks (df.map toDistRow) lab _
    (groupKeys_nodup strLe (fun r => r.period_label) (df.map toDistRow))]
  by_cases hm : lab ∈ groupKeys strLe (fun r => r.period_label) (df.map toDistRow)
  · rw [if_pos hm]
  · rw [if_neg hm]
    have hnil : (df.map toDistRow).filter (fun r => r.period_label = lab) = [] := by
      rw [List.filter_eq_nil_iff]
      intro r hr hp
      apply hm
      rw [mem_groupKeys]
      have : r.period_label = lab := of_decide_eq_true hp
      rw [← this]
      exact List.mem_map_of_mem _ hr
    rw [hnil]
    simp

theorem distributions_subperm (df : List Record) :
    (compute_feature_distributions df).Subperm (df.map toDistRow) := by
  simp only [compute_feature_distributions]
  refine List.Subperm.trans (flatMap_subperm ?_)
    (flatMap_filter_perm _ (df.map toDistRow)
      (groupKeys_nodup strLe (fun r => r.period_label) (df.map toDistRow)) ?_).subperm
  · intro lab _
    exact sampleWR_subperm 42 _ _
  · intro r hr
    rw [mem_groupKeys]
    exact List.mem_map_of_mem _ hr

/-! ## Claim C9 -/

/-- C9: records are partitioned into the two strata by training-year
membership of the `year` column; each stratum independently yields a
without-replacement (sub-multiset) sample of exactly min(stratum size, 5000)
rows — a stratum at or below the cap is kept whole — and the whole output is
a sub-multiset of the input rows. The sampler is modelled as a deterministic
function of the fixed seed 42, so re-running it on the same input yields the
same sample by construction. -/
theorem c9_sampler :
    (∀ (seed n : ℕ) (l : List DistRow),
      (sampleWR seed n l).length = min n l.length ∧ (sampleWR seed n l).Subperm l) ∧
    (∀ (df : List Record) (lab : String),
      ((compute_feature_distributions df).filter
        (fun r => r.period_label = lab)).length =
        min ((df.map toDistRow).filter (fun r => r.period_label = lab)).length 5000) ∧
    (∀ df : List Record,
      (compute_feature_distributions df).Subperm (df.map toDistRow)) ∧
    (∀ df : List Record, ∀ r ∈ df.map toDistRow,
      (r.period_label = "training (2012-14)" ↔ r.year ∈ TRAIN_YEARS) ∧
      (r.period_label = "training (2012-14)" ∨
        r.period_label = "monitoring (2015-18)")) := by
  refine ⟨fun seed n l => ⟨sampleWR_length seed n l, sampleWR_subperm seed n l⟩,
    distributions_stratum_length, distributions_subperm, ?_⟩
  intro df r hr
  rw [List.mem_map] at hr
  obtain ⟨r₀, _, rfl⟩ := hr
  have hyear : (toDistRow r₀).year = r₀.year := rfl
  have hlabel : (toDistRow r₀).period_label =
      (if r₀.year ∈ TRAIN_YEARS then "training (2012-14)"
       else "monitoring (2015-18)") := rfl
  rw [hyear, hlabel]
  by_cases hy : r₀.year ∈ TRAIN_YEARS
  · rw [if_pos hy]
    exact ⟨⟨fun _ => hy, fun _ => rfl⟩, Or.inl rfl⟩
  · rw [if_neg hy]
    exact ⟨⟨fun hs => absurd hs (by decide), fun hyy => absurd hyy hy⟩, Or.inr rfl⟩

/-- Witness for C9 at a concrete dataset. -/
theorem c9_witness :
    ((compute_feature_distributions c9df).filter
      (fun r => r.period_label = "training (2012-14)")).length =
      min ((c9df.map toDistRow).filter
        (fun r => r.period_label = "training (2012-14)")).length 5000 :=
  c9_sampler.2.1 c9df ("training (2012-14)")

end CreditScope
